import Mathlib

/-!
# Verification of the bridge repository's card-protocol and frontend messaging

This development gives a shallow embedding, in Lean, of the parts of the
`jasujm/bridge` repository that the verified properties concern:

* the frontend messaging layer (`bridgegui/messaging.py`): control-reply
  validation at the byte level, and the command framing used by
  `sendCommand` / `MessageQueue._handle_message`, including a model of the
  JSON serialisation employed for command arguments;
* the card model (`bridgegui/cards.py`): `asCard` conversion/validation;
* the card-server test harness (`test_card_server.py`): the fixed
  partition `CARD_RANGE` of deck positions among peers and the endpoint
  assignment built during `init`;
* the commitment-protocol engine of the card server.  The card server
  itself is not part of the Python sources (only its test harness is), so
  the engine is modelled from the specification; the definitions concerned
  carry doc comments starting with `Modelled from the spec:`.

Machine integers are modelled as `Nat`/`Int`; byte strings as `List Nat`
where the byte level matters and as `List Char` where the Python code
round-trips through `str.encode`/`bytes.decode` (UTF-8, an external codec
bijection).  Fallible Python code (raised exceptions) is modelled with
`Option`/`Except`.
-/

namespace Bridge

/-! ## Byte-level control-reply validation (`bridgegui/messaging.py`)

A ZMQ message is a list of frames, each frame a byte string.  Here frames
are modelled at the byte level, `List Nat`, because `_failed_status_code`
inspects raw bytes via `struct.unpack('>l', ...)`. -/

/-- A byte-string frame. -/
abbrev Frame := List Nat

/-- The empty frame `b''`. -/
def EMPTY_FRAME : Frame := []

/-- Big-endian signed 32-bit decoding, the semantics of
`struct.unpack('>l', code)` for a four-byte `code`. -/
def unpackInt32BE (code : Frame) : Int :=
  let u : Nat := code.getD 0 0 * 2^24 + code.getD 1 0 * 2^16 +
    code.getD 2 0 * 2^8 + code.getD 3 0
  if u < 2^31 then (u : Int) else (u : Int) - 2^32

/-- Embedding of `messaging._failed_status_code`: a status frame indicates failure iff it
is exactly four bytes long and decodes as a negative big-endian signed
32-bit integer. -/
def failed_status_code (code : Frame) : Bool :=
  if code.length ≠ 4 then false
  else decide (unpackInt32BE code < 0)

/-- Embedding of `messaging.validateControlReply`: checks that the parts contain an empty
frame and a non-failure status code; if so strips the two-frame prefix and
returns the remainder, otherwise returns `None`. -/
def validateControlReply (parts : List Frame) : Option (List Frame) :=
  if parts.length < 2 ∨ parts.getD 0 [] ≠ EMPTY_FRAME ∨
      failed_status_code (parts.getD 1 []) then
    none
  else
    some (parts.drop 2)

/-! ## Harness peer directory (`src/python/test_card_server.py`) -/

/-- A peer entry of the harness: identity, control port, endpoint port. -/
structure PeerEntry where
  identity : String
  control : Nat
  endpoint : Nat
deriving DecidableEq, Repr, Inhabited

/-- Embedding of the harness's `get_endpoint(port)`. -/
def get_endpoint (port : Nat) : String :=
  "tcp://127.0.0.1:" ++ Nat.repr port

/-- The harness's fixed list of four peers. -/
def PEERS : List PeerEntry :=
  [⟨"peer1", 5501, 5510⟩, ⟨"peer2", 5502, 5520⟩,
   ⟨"peer3", 5503, 5530⟩, ⟨"peer4", 5504, 5540⟩]

/-- Embedding of `CARD_RANGE = [list(range(i*13, (i+1)*13)) for i in range(len(PEERS))]`. -/
def CARD_RANGE : List (List Nat) :=
  (List.range PEERS.length).map (fun i => List.range' (i * 13) 13)

/-- An init entry sent to a peer: the other peer's identity and an optional
connect-to endpoint. -/
structure InitEntry where
  identity : String
  endpoint : Option String
deriving DecidableEq, Repr

/-- The `entries` list the harness sends to peer `n` during `init`: one
entry per other peer `m`, carrying the endpoint of `m` exactly when
`n >= m`. -/
def initEntries (n : Nat) : List InitEntry :=
  (PEERS.enum.filter (fun p => p.1 ≠ n)).map (fun p =>
    ⟨p.2.identity, if n ≥ p.1 then some (get_endpoint p.2.endpoint) else none⟩)

/-- The entry about peer `m` in the list sent to peer `n`, if any. -/
def entryFor (n m : Nat) : Option InitEntry :=
  (initEntries n).find? (fun e => e.identity = (PEERS.getD m default).identity)

/-- Whether peer `n` is given a connect-to endpoint for peer `m` at init. -/
def hasEndpointFor (n m : Nat) : Bool :=
  match entryFor n m with
  | some e => e.endpoint.isSome
  | none => false

/-! ## Commitment protocol engine

The card server binary (`cardserver`) is not among the Python sources; only
its test harness is.  The engine below is therefore modelled from the
specification (sections 3, 4.4, 8): states
`Idle → Initialized → Shuffled → Terminated`, a joint permutation of the 52
positions derived deterministically from all peers' committed random
contributions (the spec leaves the combination function open, suggesting
XOR of the contributions feeding a shuffle; a concrete instantiation is
fixed here — all theorems hold for every choice of contributions), binding
commitments per position, and draw/reveal/revealAll/terminate operations. -/

/-- A card: rank (0–12) and suit (0–3) in the fixed canonical order. -/
structure CardVal where
  rank : Nat
  suit : Nat
deriving DecidableEq, Repr, Inhabited

/-- Canonical suit-major deck order: deck index to card. -/
def indexToCard (i : Nat) : CardVal := ⟨i % 13, i / 13⟩

/-- The canonical 52-card deck, one card per deck index. -/
def fullDeck : List CardVal := (List.range 52).map indexToCard

/-- Modelled from the spec: the error taxonomy of §7. -/
inductive PError where
  | ConfigError
  | AuthenticationError
  | ProtocolError
  | IncompleteShuffleError
  | VerificationError
  | ConsistencyError
  | StateError
deriving DecidableEq, Repr

/-- Modelled from the spec: engine states
`Idle → Initialized → Shuffled → Terminated` (§4.4). -/
inductive Phase where
  | Idle
  | Initialized
  | Shuffled
  | Terminated
deriving DecidableEq, Repr, Inhabited

/-- Modelled from the spec: the state of one peer's commitment protocol
engine — its phase, the agreed peer count and self order, the revealed
random contributions of all peers (indexed by peer order, filled in when
`shuffle` completes), and whether its secure channels are open. -/
structure EngineState where
  phase : Phase
  numPeers : Nat
  selfOrder : Nat
  contributions : List Nat
  channelsOpen : Bool
deriving DecidableEq, Repr, Inhabited

/-- A simple linear-congruential step used to expand the combined
randomness into a shuffle; the particular generator is an implementation
freedom the spec leaves open. -/
def nextSeed (s : Nat) : Nat := (s * 1103515245 + 12345) % 2147483648

/-- Modelled from the spec: the combination of the peers' independently
committed random contributions ("e.g. via XOR", §4.4). -/
def combineContributions (secrets : List Nat) : Nat :=
  secrets.foldl Nat.xor 0

/-- Draw a permutation of `l` from a seed: repeatedly pick the element at
index `seed % length` and recurse on the remainder with the stepped seed.
The fuel is an upper bound on the number of picks. -/
def selectPermAux : Nat → Nat → List Nat → List Nat
  | 0, _, _ => []
  | fuel + 1, seed, l =>
    if l = [] then []
    else
      l.getD (seed % l.length) 0 ::
        selectPermAux fuel (nextSeed seed) (l.eraseIdx (seed % l.length))

/-- Draw a permutation of `l` from a seed. -/
def selectPerm (seed : Nat) (l : List Nat) : List Nat :=
  selectPermAux l.length seed l

/-- Modelled from the spec: the joint permutation of the 52 positions
produced by a completed shuffle — a deterministic function of all peers'
contributions mapping each position to a deck index (§4.4, §3 "Deck
Assignment"). -/
def deckAssignment (secrets : List Nat) : List Nat :=
  selectPerm (combineContributions secrets) (List.range 52)

/-- Modelled from the spec: the owned position range of the peer of order
`i` in an `n`-peer session — the fixed partition of the 52 positions into
`n` contiguous ranges of size `52/n` (§4.2). -/
def ownedRange (n i : Nat) : List Nat := List.range' (i * (52 / n)) (52 / n)

/-- Modelled from the spec: `initialize`/`init` — fails with `ConfigError`
when the self order is out of range or the peer count does not evenly
divide the deck (§4.2); otherwise produces an `Initialized` engine. -/
def engineInit (order n : Nat) : Except PError EngineState :=
  if n = 0 ∨ ¬ order < n ∨ ¬ 52 % n = 0 then
    .error .ConfigError
  else
    .ok ⟨.Initialized, n, order, [], true⟩

/-- Modelled from the spec: `shuffle` — requires an `Initialized` engine
and the revealed contributions of all `n` peers; with fewer than `n`
contributions the commitment round is incomplete and the shuffle fails
with `IncompleteShuffleError` (§4.4). -/
def engineShuffle (st : EngineState) (secrets : List Nat) :
    Except PError EngineState :=
  if st.phase ≠ .Initialized then .error .StateError
  else if secrets.length ≠ st.numPeers then .error .IncompleteShuffleError
  else .ok { st with phase := .Shuffled, contributions := secrets }

/-- The full-deck reply array of a `draw`: a card at exactly the requested
positions, `null` (`none`) at every other position of the structure. -/
def drawReply (st : EngineState) (positions : List Nat) :
    List (Option CardVal) :=
  (List.range 52).map (fun k =>
    if k ∈ positions then
      some (indexToCard ((deckAssignment st.contributions).getD k 0))
    else none)

/-- Modelled from the spec: `draw(ownedRange)` — only valid once shuffled,
only for positions inside the caller's owned partition; returns the reply
structure with cards for exactly the requested positions (§4.4). -/
def engineDraw (st : EngineState) (positions : List Nat) :
    Except PError (List (Option CardVal)) :=
  if st.phase ≠ .Shuffled then .error .StateError
  else if ¬ positions.all (· ∈ ownedRange st.numPeers st.selfOrder) then
    .error .ProtocolError
  else .ok (drawReply st positions)

/-- Modelled from the spec: a commitment binds an opened value and nonce;
binding is modelled by an injective pairing (§3 "Commitment"). -/
def commitTo (value nonce : Nat) : Nat := Nat.pair value nonce

/-- The nonce a peer uses for the commitment at position `p` (derived
deterministically from the session randomness; any choice works). -/
def commitNonce (secrets : List Nat) (p : Nat) : Nat :=
  Nat.pair (combineContributions secrets) p

/-- The commitment for position `p` published during the shuffle: it binds
the deck index actually assigned to `p`. -/
def publishedCommitment (secrets : List Nat) (p : Nat) : Nat :=
  commitTo ((deckAssignment secrets).getD p 0) (commitNonce secrets p)

/-- Modelled from the spec: processing one peer's disclosure for position
`p` during `reveal` — the observer checks the opened value against the
commitment previously published for `p` and fails with
`VerificationError` on mismatch, never accepting the value (§4.4). -/
def processReveal (st : EngineState) (p claimedIdx claimedNonce : Nat) :
    Except PError CardVal :=
  if st.phase ≠ .Shuffled then .error .StateError
  else if commitTo claimedIdx claimedNonce ≠
      publishedCommitment st.contributions p then
    .error .VerificationError
  else .ok (indexToCard claimedIdx)

/-- Modelled from the spec: `revealAll(range)` — once shuffled, every peer
discloses the cards at the requested positions; each observer derives the
same sequence from the committed joint permutation (§4.4). -/
def engineRevealAll (st : EngineState) (positions : List Nat) :
    Except PError (List CardVal) :=
  if st.phase ≠ .Shuffled then .error .StateError
  else if ¬ positions.all (· < 52) then .error .ProtocolError
  else .ok (positions.map (fun p =>
    indexToCard ((deckAssignment st.contributions).getD p 0)))

/-- Modelled from the spec: the state after `terminate` — channels closed,
phase `Terminated` (§4.4). -/
def terminateState (st : EngineState) : EngineState :=
  { st with phase := .Terminated, channelsOpen := false }

/-- Modelled from the spec: `terminate` — flushes and closes, transitions
to `Terminated`; accepted in every phase, including `Terminated` itself
(idempotent, a second call is a no-op, not an error) (§4.4). -/
def engineTerminate (st : EngineState) : Except PError EngineState :=
  .ok (terminateState st)

/-- The state of the peer of order `i` after a session in which init and
shuffle completed with the given contributions. -/
def peerState (secrets : List Nat) (i : Nat) : EngineState :=
  ⟨.Shuffled, secrets.length, i, secrets, true⟩

/-- Modelled from the spec: a full honest run — every peer performs `init`
followed by `shuffle`, all `n` contributions being exchanged and revealed;
returns the resulting engine states in peer order. -/
def runSession (secrets : List Nat) : Except PError (List EngineState) :=
  (List.range secrets.length).mapM (fun i => do
    let st ← engineInit i secrets.length
    engineShuffle st secrets)

/-- The cards a reply yields at the requested positions, as the harness
collects them (`Card(**cards[k]) for k in CARD_RANGE[j]`). -/
def extractCards (reply : List (Option CardVal)) (positions : List Nat) :
    List CardVal :=
  positions.filterMap (fun k => reply.getD k none)

/-- All cards obtained across the peers' `draw` calls over their full
owned ranges after a completed shuffle. -/
def allDrawnCards (secrets : List Nat) : List CardVal :=
  (List.range secrets.length).flatMap (fun i =>
    match engineDraw (peerState secrets i) (ownedRange secrets.length i) with
    | .ok reply => extractCards reply (ownedRange secrets.length i)
    | .error _ => [])

/-! ## JSON values and the `json.dumps` / `json.loads` model

Command arguments are serialised with Python's `json` module
(`json.dumps(value).encode()` on send, `json.loads(frame.decode())` on
receive).  The values are modelled by `JsonVal` (numbers restricted to the
integers actually exchanged by the protocol), the serialiser by `dumps`
(compact Python defaults: `ensure_ascii` escaping, separators `", "` and
`": "`), and the deserialiser by a fuel-indexed recursive-descent parser
`parseVal` following the stdlib scanner: whitespace skipping, string
escapes including surrogate pairs, and last-wins duplicate object keys.
Text is `List Char`; the `str.encode`/`bytes.decode` UTF-8 codec between
text and wire bytes is an external bijection and frames carrying text are
modelled at the text level. -/

/-- A JSON value.  Object members keep their (insertion) order, as Python
dicts do. -/
inductive JsonVal where
  | null
  | bool (b : Bool)
  | num (n : Int)
  | str (s : List Char)
  | arr (elems : List JsonVal)
  | obj (members : List (List Char × JsonVal))
deriving BEq, Repr, Inhabited

/-- An opening brace, kept out of string literals. -/
def lbrace : Char := Char.ofNat 123

/-- A closing brace, kept out of string literals. -/
def rbrace : Char := Char.ofNat 125

/-- JSON whitespace characters (space, tab, newline, carriage return). -/
def isWsChar (c : Char) : Bool :=
  c = ' ' || c = Char.ofNat 9 || c = Char.ofNat 10 || c = Char.ofNat 13

/-- Drop leading JSON whitespace. -/
def skipWs : List Char → List Char
  | [] => []
  | c :: rest => if isWsChar c then skipWs rest else c :: rest

/-- Decimal digit character for `d < 10`. -/
def digitChar (d : Nat) : Char := Char.ofNat (48 + d)

/-- Whether `c` is a decimal digit. -/
def isDigitChar (c : Char) : Bool := 48 ≤ c.toNat && c.toNat ≤ 57

/-- Numeric value of a decimal digit character. -/
def digitVal (c : Char) : Nat := c.toNat - 48

/-- Decimal representation of a natural number, most significant digit
first (the digits of Python's `repr`). -/
def natToChars (n : Nat) : List Char :=
  if _ : n < 10 then [digitChar n]
  else natToChars (n / 10) ++ [digitChar (n % 10)]
termination_by n
decreasing_by exact Nat.div_lt_self (by omega) (by omega)

/-- Decimal representation of an integer, as serialised by `json.dumps`. -/
def intToChars (n : Int) : List Char :=
  if n < 0 then '-' :: natToChars (-n).toNat else natToChars n.toNat

/-- Value of a string of decimal digits. -/
def digitsToNat (ds : List Char) : Nat :=
  ds.foldl (fun a c => 10 * a + digitVal c) 0

/-- Parse an integer token: optional minus sign followed by a nonempty
digit run (the integer fragment of the stdlib `NUMBER_RE`). -/
def parseIntTok (cs : List Char) : Option (Int × List Char) :=
  match cs with
  | [] => none
  | c :: rest =>
    if c = '-' then
      let ds := rest.takeWhile isDigitChar
      if ds = [] then none
      else some (-(digitsToNat ds : Int), rest.dropWhile isDigitChar)
    else
      let ds := (c :: rest).takeWhile isDigitChar
      if ds = [] then none
      else some ((digitsToNat ds : Int), (c :: rest).dropWhile isDigitChar)

/-- Lowercase hexadecimal digit character for `d < 16` (Python's `%04x`). -/
def hexDigitChar (d : Nat) : Char :=
  if d < 10 then Char.ofNat (48 + d) else Char.ofNat (87 + d)

/-- Four lowercase hex digits of `n < 0x10000`. -/
def hex4 (n : Nat) : List Char :=
  [hexDigitChar (n / 4096 % 16), hexDigitChar (n / 256 % 16),
   hexDigitChar (n / 16 % 16), hexDigitChar (n % 16)]

/-- Value of one hexadecimal digit character (either case accepted). -/
def hexVal (c : Char) : Option Nat :=
  if 48 ≤ c.toNat ∧ c.toNat ≤ 57 then some (c.toNat - 48)
  else if 97 ≤ c.toNat ∧ c.toNat ≤ 102 then some (c.toNat - 87)
  else if 65 ≤ c.toNat ∧ c.toNat ≤ 70 then some (c.toNat - 55)
  else none

/-- Parse exactly four hexadecimal digits. -/
def parseHex4 : List Char → Option (Nat × List Char)
  | c1 :: c2 :: c3 :: c4 :: rest =>
    match hexVal c1, hexVal c2, hexVal c3, hexVal c4 with
    | some d1, some d2, some d3, some d4 =>
      some (4096 * d1 + 256 * d2 + 16 * d3 + d4, rest)
    | _, _, _, _ => none
  | _ => none

/-- Escape one character the way `json.dumps` does with its default
`ensure_ascii=True`: short escapes for quote, backslash and the common
control characters, `\uXXXX` (with surrogate pairs beyond the BMP) for all
other characters outside printable ASCII, the character itself otherwise. -/
def encodeJsonChar (c : Char) : List Char :=
  if c = '"' then ['\\', '"']
  else if c = '\\' then ['\\', '\\']
  else if c.toNat = 8 then ['\\', 'b']
  else if c.toNat = 9 then ['\\', 't']
  else if c.toNat = 10 then ['\\', 'n']
  else if c.toNat = 12 then ['\\', 'f']
  else if c.toNat = 13 then ['\\', 'r']
  else if c.toNat < 32 ∨ 126 < c.toNat then
    if c.toNat < 65536 then '\\' :: 'u' :: hex4 c.toNat
    else
      ('\\' :: 'u' :: hex4 (55296 + (c.toNat - 65536) / 1024)) ++
      ('\\' :: 'u' :: hex4 (56320 + (c.toNat - 65536) % 1024))
  else [c]

/-- Serialise the body of a JSON string (without the enclosing quotes). -/
def encodeStringBody (s : List Char) : List Char := s.flatMap encodeJsonChar

/-- Serialise a JSON string with its enclosing quotes. -/
def encodeString (s : List Char) : List Char :=
  '"' :: encodeStringBody s ++ ['"']

mutual

/-- Serialise a JSON value the way `json.dumps` does with its defaults
(compact, item separator `", "`, key separator `": "`). -/
def dumpsVal : JsonVal → List Char
  | .null => String.toList "null"
  | .bool true => String.toList "true"
  | .bool false => String.toList "false"
  | .num n => intToChars n
  | .str s => encodeString s
  | .arr [] => ['[', ']']
  | .arr (x :: xs) => '[' :: (dumpsVal x ++ dumpsArrTail xs) ++ [']']
  | .obj [] => [lbrace, rbrace]
  | .obj (kv :: kvs) =>
    lbrace :: (dumpsMember kv ++ dumpsObjTail kvs) ++ [rbrace]

/-- Serialise one object member, `"key": value`. -/
def dumpsMember : List Char × JsonVal → List Char
  | (k, v) => encodeString k ++ ':' :: ' ' :: dumpsVal v

/-- Serialise the remaining array elements, each preceded by `", "`. -/
def dumpsArrTail : List JsonVal → List Char
  | [] => []
  | x :: xs => ',' :: ' ' :: (dumpsVal x ++ dumpsArrTail xs)

/-- Serialise the remaining object members, each preceded by `", "`. -/
def dumpsObjTail : List (List Char × JsonVal) → List Char
  | [] => []
  | kv :: kvs => ',' :: ' ' :: (dumpsMember kv ++ dumpsObjTail kvs)

end

/-- Resolve one backslash escape character (the stdlib `BACKSLASH` table). -/
def escapeChar (e : Char) : Option Char :=
  if e = '"' then some '"'
  else if e = '\\' then some '\\'
  else if e = '/' then some '/'
  else if e = 'b' then some (Char.ofNat 8)
  else if e = 'f' then some (Char.ofNat 12)
  else if e = 'n' then some (Char.ofNat 10)
  else if e = 'r' then some (Char.ofNat 13)
  else if e = 't' then some (Char.ofNat 9)
  else none

/-- Parse the body of a JSON string after the opening quote, following the
stdlib `py_scanstring` in strict mode: raw characters up to the closing
quote (control characters rejected), backslash escapes, `\uXXXX` escapes
with surrogate-pair combination.  (A lone surrogate, which Python would
keep as an unpaired surrogate code point, has no `Char` counterpart and is
rejected; the serialiser never produces one.)  Returns the decoded
content and the input following the closing quote. -/
def parseStringBody : Nat → List Char → Option (List Char × List Char)
  | 0, _ => none
  | _ + 1, [] => none
  | fuel + 1, c :: rest =>
    if c = '"' then some ([], rest)
    else if c = '\\' then
      match rest with
      | [] => none
      | e :: rest2 =>
        if e = 'u' then
          (parseHex4 rest2).bind (fun p =>
            if 55296 ≤ p.1 ∧ p.1 ≤ 56319 then
              match p.2 with
              | c1 :: c2 :: rest4 =>
                if c1 = '\\' ∧ c2 = 'u' then
                  (parseHex4 rest4).bind (fun q =>
                    if 56320 ≤ q.1 ∧ q.1 ≤ 57343 then
                      (parseStringBody fuel q.2).map (fun r =>
                        (Char.ofNat (65536 + (p.1 - 55296) * 1024 +
                          (q.1 - 56320)) :: r.1, r.2))
                    else none)
                else none
              | _ => none
            else if 56320 ≤ p.1 ∧ p.1 ≤ 57343 then none
            else
              (parseStringBody fuel p.2).map (fun r =>
                (Char.ofNat p.1 :: r.1, r.2)))
        else
          (escapeChar e).bind (fun c' =>
            (parseStringBody fuel rest2).map (fun r => (c' :: r.1, r.2)))
    else if c.toNat < 32 then none
    else (parseStringBody fuel rest).map (fun r => (c :: r.1, r.2))

/-- Insert a key/value pair into an association list with Python `dict`
assignment semantics: replace the value at an existing key in place,
append a new key at the end. -/
def dictInsert : List (List Char × JsonVal) → List Char × JsonVal →
    List (List Char × JsonVal)
  | [], kv => [kv]
  | (k', v') :: rest, kv =>
    if k' = kv.1 then (k', kv.2) :: rest else (k', v') :: dictInsert rest kv

/-- Build a Python `dict` from pairs in order: first occurrence keeps its
position, a later duplicate key overwrites the value (last wins). -/
def dictOf (ps : List (List Char × JsonVal)) : List (List Char × JsonVal) :=
  ps.foldl dictInsert []

mutual

/-- Parse one JSON value from input whose leading whitespace has been
skipped, following the stdlib scanner; returns the value and the
remaining input.  The fuel bounds the nesting depth. -/
def parseVal : Nat → List Char → Option (JsonVal × List Char)
  | 0, _ => none
  | _ + 1, [] => none
  | fuel + 1, c :: rest =>
    if c = 'n' then
      match rest with
      | 'u' :: 'l' :: 'l' :: rest' => some (.null, rest')
      | _ => none
    else if c = 't' then
      match rest with
      | 'r' :: 'u' :: 'e' :: rest' => some (.bool true, rest')
      | _ => none
    else if c = 'f' then
      match rest with
      | 'a' :: 'l' :: 's' :: 'e' :: rest' => some (.bool false, rest')
      | _ => none
    else if c = '"' then
      (parseStringBody (rest.length + 1) rest).map (fun p => (.str p.1, p.2))
    else if c = '[' then
      match skipWs rest with
      | [] => none
      | d :: rest' =>
        if d = ']' then some (.arr [], rest')
        else (parseArrElems fuel (d :: rest')).map (fun p => (.arr p.1, p.2))
    else if c = lbrace then
      match skipWs rest with
      | [] => none
      | r :: rest' =>
        if r = rbrace then some (.obj [], rest')
        else
          (parseObjMembers fuel (r :: rest')).map (fun p =>
            (.obj (dictOf p.1), p.2))
    else if c = '-' || isDigitChar c then
      (parseIntTok (c :: rest)).map (fun p => (.num p.1, p.2))
    else none

/-- Parse the elements of a nonempty array, starting at the first element
(whitespace already skipped), up to and including the closing bracket. -/
def parseArrElems : Nat → List Char → Option (List JsonVal × List Char)
  | 0, _ => none
  | fuel + 1, cs =>
    match parseVal fuel cs with
    | none => none
    | some (v, cs1) =>
      match skipWs cs1 with
      | [] => none
      | d :: cs2 =>
        if d = ',' then
          match parseArrElems fuel (skipWs cs2) with
          | none => none
          | some (vs, cs3) => some (v :: vs, cs3)
        else if d = ']' then some ([v], cs2)
        else none

/-- Parse the members of a nonempty object, starting at the opening quote
of the first key (whitespace already skipped), up to and including the
closing brace. -/
def parseObjMembers : Nat → List Char →
    Option (List (List Char × JsonVal) × List Char)
  | 0, _ => none
  | fuel + 1, cs =>
    match cs with
    | '"' :: cs0 =>
      match parseStringBody (cs0.length + 1) cs0 with
      | none => none
      | some (k, cs1) =>
        match skipWs cs1 with
        | [] => none
        | d :: cs2 =>
          if d = ':' then
            match parseVal fuel (skipWs cs2) with
            | none => none
            | some (v, cs3) =>
              match skipWs cs3 with
              | [] => none
              | d' :: cs4 =>
                if d' = ',' then
                  match parseObjMembers fuel (skipWs cs4) with
                  | none => none
                  | some (ms, cs5) => some ((k, v) :: ms, cs5)
                else if d' = rbrace then some ([(k, v)], cs4)
                else none
          else none
    | _ => none

end

/-- Model of `json.loads`: skip leading whitespace, parse one value,
accept only if nothing but whitespace follows.  The fuel `length + 1`
dominates any nesting depth of the input. -/
def loads (s : List Char) : Option JsonVal :=
  match parseVal (s.length + 1) (skipWs s) with
  | some (v, rest) => if skipWs rest = [] then some v else none
  | none => none

mutual

/-- Nesting measure of a value: an upper bound on the parser fuel needed. -/
def jsizeVal : JsonVal → Nat
  | .arr xs => 1 + jsizeList xs
  | .obj kvs => 1 + jsizeMembers kvs
  | _ => 1

/-- Nesting measure of array elements. -/
def jsizeList : List JsonVal → Nat
  | [] => 1
  | x :: xs => 1 + max (jsizeVal x) (jsizeList xs)

/-- Nesting measure of object members. -/
def jsizeMembers : List (List Char × JsonVal) → Nat
  | [] => 1
  | kv :: kvs => 1 + max (jsizeVal kv.2) (jsizeMembers kvs)

end

mutual

/-- Whether a value can arise from a Python object: object keys are
pairwise distinct at every level (a Python `dict` cannot repeat a key). -/
def wfVal : JsonVal → Bool
  | .arr xs => wfList xs
  | .obj kvs => decide ((kvs.map Prod.fst).Nodup) && wfMembers kvs
  | _ => true

/-- Well-formedness of array elements. -/
def wfList : List JsonVal → Bool
  | [] => true
  | x :: xs => wfVal x && wfList xs

/-- Well-formedness of object member values. -/
def wfMembers : List (List Char × JsonVal) → Bool
  | [] => true
  | kv :: kvs => wfVal kv.2 && wfMembers kvs

end

/-- A continuation that can legitimately follow a serialised value inside
a JSON document: the end of input, or a separator/closer. -/
def restOk (cs : List Char) : Prop :=
  cs = [] ∨ ∃ d t, cs = d :: t ∧ (d = ',' ∨ d = ']' ∨ d = rbrace)

/-! ## Command framing (`messaging.sendCommand`, `MessageQueue._handle_message`) -/

/-- Embedding of `messaging.sendCommand`'s frame construction: an empty
delimiter frame, the command frame, then for each keyword argument its
key frame and the JSON serialisation of its value. -/
def sendCommandParts (command : List Char)
    (kwargs : List (List Char × JsonVal)) : List (List Char) :=
  [[], command] ++ kwargs.flatMap (fun kv => [kv.1, dumpsVal kv.2])

/-- The keyword-argument decoding loop of `MessageQueue._handle_message`:
`for n in range(1, len(parts)-1, 2)` reads frames `n` and `n+1` as a key
and a JSON-encoded value (a dangling unpaired trailing frame is outside
the range and ignored); a value that fails to parse raises
`ProtocolError` (`none`). -/
def decodeKwargPairs : List (List Char) → Option (List (List Char × JsonVal))
  | k :: v :: rest =>
    match loads v with
    | none => none
    | some val =>
      match decodeKwargPairs rest with
      | none => none
      | some ps => some ((k, val) :: ps)
  | _ => some []

/-- Embedding of `MessageQueue._handle_message`'s decoding of a validated
message: empty parts raise `ProtocolError` (`none`); otherwise the first
frame identifies the command and the following frames are decoded as
keyword arguments accumulated into a dict (`kwargs[key] = value`). -/
def handle_message (parts : List (List Char)) :
    Option (List Char × List (List Char × JsonVal)) :=
  match parts with
  | [] => none
  | command :: rest =>
    (decodeKwargPairs rest).map (fun ps => (command, dictOf ps))

/-- Keyword arguments as produced by a Python `**kwargs` dict: distinct
keys, and every value serialisable from a Python object. -/
def wfKwargs (kwargs : List (List Char × JsonVal)) : Bool :=
  decide ((kwargs.map Prod.fst).Nodup) && wfMembers kwargs

/-! ## Card conversion (`bridgegui/cards.py`) -/

/-- Embedding of `cards.RANK_TAGS`. -/
def RANK_TAGS : List (List Char) :=
  ["2", "3", "4", "5", "6", "7", "8", "9", "10", "jack", "queen", "king",
   "ace"].map String.toList

/-- Embedding of `cards.SUIT_TAGS`. -/
def SUIT_TAGS : List (List Char) :=
  ["clubs", "diamonds", "hearts", "spades"].map String.toList

/-- Embedding of the `Card` named tuple of `cards.py`: rank and suit
fields, values unconstrained at construction time. -/
structure Card where
  rank : JsonVal
  suit : JsonVal
deriving BEq, Repr

/-- An argument passed to `asCard`: either already a `Card` instance or
some other (JSON-shaped) Python object. -/
inductive CardArg where
  | card (c : Card)
  | json (v : JsonVal)

/-- Subscripting `v[key]`: succeeds exactly on a dict containing the key. -/
def jsonLookup (v : JsonVal) (key : List Char) : Option JsonVal :=
  match v with
  | .obj kvs => (kvs.find? (fun kv => kv.1 = key)).map Prod.snd
  | _ => none

/-- Python's `x in tags` for a tuple of strings: true exactly when `x` is
a string equal to one of the tags. -/
def inTags (v : JsonVal) (tags : List (List Char)) : Bool :=
  match v with
  | .str s => decide (s ∈ tags)
  | _ => false

/-- Embedding of `cards.asCard`: a `Card` instance is returned unchanged;
otherwise the rank and suit are looked up (any failure raises
`ProtocolError`, here `none`) and validated against the tag tuples. -/
def asCard : CardArg → Option Card
  | .card c => some c
  | .json v =>
    match jsonLookup v (String.toList "rank"),
        jsonLookup v (String.toList "suit") with
    | some r, some s =>
      if !(inTags r RANK_TAGS) || !(inTags s SUIT_TAGS) then none
      else some ⟨r, s⟩
    | _, _ => none

/-! # Theorems -/

/-! ## Control-reply validation (claim C9) -/

theorem failed_status_code_iff (code : Frame) :
    failed_status_code code = true ↔
      code.length = 4 ∧ unpackInt32BE code < 0 := by
  unfold failed_status_code
  by_cases h : code.length = 4 <;> simp [h]

/-- C9: `validateControlReply` returns `None` exactly when the reply has
fewer than two frames, or its first frame is not the empty frame, or its
second frame is exactly four bytes long and decodes as a negative
big-endian signed 32-bit integer; in every other case it returns the
frames after the first two.  In particular a status frame that is not
four bytes long — such as `b'OK'`, bytes `[79, 75]` — is never classified
as a failure. -/
theorem validateControlReply_characterisation (parts : List Frame) :
    validateControlReply parts =
      (if parts.length < 2 ∨ parts.getD 0 [] ≠ EMPTY_FRAME ∨
          ((parts.getD 1 []).length = 4 ∧ unpackInt32BE (parts.getD 1 []) < 0)
        then none else some (parts.drop 2)) ∧
    failed_status_code [79, 75] = false := by
  refine ⟨?_, by decide⟩
  unfold validateControlReply
  exact if_congr
    (or_congr Iff.rfl (or_congr Iff.rfl (failed_status_code_iff _))) rfl rfl

/-! ## The owned-range partition (claim C5) -/

/-- C5: the harness's `CARD_RANGE` is the fixed partition of the 52 deck
positions into four contiguous ranges of thirteen: the peer of order `i`
owns exactly positions `13*i` through `13*i + 12`, the ranges are
pairwise disjoint, and together they cover `0..51`. -/
theorem CARD_RANGE_partition :
    CARD_RANGE = (List.range 4).map (fun i => List.range' (13 * i) 13) ∧
    CARD_RANGE.Pairwise (fun a b => ∀ x ∈ a, x ∉ b) ∧
    CARD_RANGE.flatten = List.range 52 := by
  refine ⟨?_, ?_, ?_⟩ <;> decide

/-! ## Endpoint assignment at init (claim C6) -/

/-- C6, counterexample: the claim says the peer with the lower order
value is the one given the connect-to endpoint, but in the harness's
`init` entries peer 0 receives no endpoint for peer 1 while peer 1 does
receive one for peer 0 — the higher order connects to the lower. -/
theorem init_lower_connects_counterexample :
    hasEndpointFor 0 1 = false ∧ hasEndpointFor 1 0 = true := by decide

/-- C6, amended: for every pair of distinct peers exactly one of the two
is given a connect-to endpoint for the other at init, determined by peer
order — the peer with the *higher* order value is given the endpoint of
(and connects to) the lower, so each of the six channels is opened by
exactly one side and no pair is left with neither side holding an
endpoint. -/
theorem init_higher_connects (n m : Fin 4) (hnm : n ≠ m) :
    (hasEndpointFor n m = true ↔ (m : Nat) < (n : Nat)) ∧
    (hasEndpointFor n m = true ∨ hasEndpointFor m n = true) ∧
    ¬(hasEndpointFor n m = true ∧ hasEndpointFor m n = true) := by
  revert hnm
  exact (by decide :
    ∀ p q : Fin 4, p ≠ q →
      (hasEndpointFor p q = true ↔ (q : Nat) < (p : Nat)) ∧
      (hasEndpointFor p q = true ∨ hasEndpointFor q p = true) ∧
      ¬(hasEndpointFor p q = true ∧ hasEndpointFor q p = true)) n m

/-- Witness for `init_higher_connects` at the pair (1, 0). -/
theorem init_higher_connects_witness :
    (1 : Fin 4) ≠ 0 ∧
    ((hasEndpointFor ((1 : Fin 4) : Nat) ((0 : Fin 4) : Nat) = true ↔
        ((0 : Fin 4) : Nat) < ((1 : Fin 4) : Nat)) ∧
      (hasEndpointFor ((1 : Fin 4) : Nat) ((0 : Fin 4) : Nat) = true ∨
        hasEndpointFor ((0 : Fin 4) : Nat) ((1 : Fin 4) : Nat) = true) ∧
      ¬(hasEndpointFor ((1 : Fin 4) : Nat) ((0 : Fin 4) : Nat) = true ∧
        hasEndpointFor ((0 : Fin 4) : Nat) ((1 : Fin 4) : Nat) = true)) :=
  ⟨by decide, init_higher_connects 1 0 (by decide)⟩

/-! ## Permutation lemmas for the shuffle -/

theorem selectPermAux_perm :
    ∀ (fuel seed : Nat) (l : List Nat), l.length ≤ fuel →
      (selectPermAux fuel seed l).Perm l := by
  intro fuel
  induction fuel with
  | zero =>
    intro seed l h
    have hnil : l = [] := List.length_eq_zero.mp (by omega)
    subst hnil
    simp [selectPermAux]
  | succ fuel ih =>
    intro seed l h
    rw [selectPermAux]
    by_cases hl : l = []
    · simp [hl]
    · rw [if_neg hl]
      have hpos : 0 < l.length := List.length_pos.mpr hl
      have hi : seed % l.length < l.length := Nat.mod_lt _ hpos
      have hlen : (l.eraseIdx (seed % l.length)).length ≤ fuel := by
        rw [List.length_eraseIdx, if_pos hi]
        omega
      refine ((ih (nextSeed seed) _ hlen).cons _).trans ?_
      rw [List.getD_eq_getElem l 0 hi, List.eraseIdx_eq_take_drop_succ]
      conv_rhs => rw [← List.take_append_drop (seed % l.length) l,
        List.drop_eq_getElem_cons hi]
      exact List.perm_middle.symm

theorem selectPerm_perm (seed : Nat) (l : List Nat) :
    (selectPerm seed l).Perm l :=
  selectPermAux_perm l.length seed l (Nat.le_refl _)

theorem deckAssignment_perm (secrets : List Nat) :
    (deckAssignment secrets).Perm (List.range 52) :=
  selectPerm_perm _ _

theorem deckAssignment_length (secrets : List Nat) :
    (deckAssignment secrets).length = 52 := by
  rw [(deckAssignment_perm secrets).length_eq, List.length_range]

theorem map_getD_range (l : List Nat) (d : Nat) :
    (List.range l.length).map (fun p => l.getD p d) = l := by
  apply List.ext_getElem
  · simp
  · intro i h1 h2
    simp only [List.getElem_map, List.getElem_range]
    exact List.getD_eq_getElem l d h2

/-! ## Engine run and draw lemmas -/

theorem runSession_ok (secrets : List Nat) (h4 : secrets.length = 4) :
    runSession secrets = .ok ((List.range 4).map (peerState secrets)) := by
  unfold runSession
  rw [h4]
  rw [show List.range 4 = [0, 1, 2, 3] from rfl]
  simp [List.mapM, List.mapM.loop, engineInit, engineShuffle, peerState,
    h4, Bind.bind, Except.bind, pure, Except.pure]

theorem engineDraw_owned_ok (secrets : List Nat) (i : Nat)
    (h4 : secrets.length = 4) :
    engineDraw (peerState secrets i) (ownedRange 4 i) =
      .ok (drawReply (peerState secrets i) (ownedRange 4 i)) := by
  unfold engineDraw
  rw [if_neg (by simp [peerState])]
  rw [if_neg]
  simp [peerState, h4, List.all_eq_true]

theorem mem_ownedRange_lt_52 (i k : Nat) (hi : i < 4)
    (hk : k ∈ ownedRange 4 i) : k < 52 := by
  unfold ownedRange at hk
  rw [List.mem_range'_1] at hk
  omega

theorem drawReply_getD (st : EngineState) (ps : List Nat) (k : Nat)
    (hk : k < 52) :
    (drawReply st ps).getD k none =
      (if k ∈ ps then
        some (indexToCard ((deckAssignment st.contributions).getD k 0))
      else none) := by
  unfold drawReply
  rw [List.getD_eq_getElem _ _ (by simpa using hk)]
  simp

theorem extractCards_drawReply (st : EngineState) (ps qs : List Nat)
    (h : ∀ k ∈ qs, k < 52 ∧ k ∈ ps) :
    extractCards (drawReply st ps) qs =
      qs.map (fun p =>
        indexToCard ((deckAssignment st.contributions).getD p 0)) := by
  induction qs with
  | nil => rfl
  | cons q qs ih =>
    have hq := h q (by simp)
    have hrest : ∀ k ∈ qs, k < 52 ∧ k ∈ ps := fun k hk => h k (by simp [hk])
    unfold extractCards
    simp only [List.filterMap_cons, List.map_cons]
    rw [drawReply_getD st ps q hq.1, if_pos hq.2]
    have ih' := ih hrest
    unfold extractCards at ih'
    rw [ih']

theorem map_indexToCard_getD (l : List Nat) (h : l.length = 52) :
    (List.range 52).map (fun p => indexToCard (l.getD p 0)) =
      l.map indexToCard := by
  apply List.ext_getElem
  · simp [h]
  · intro i h1 h2
    simp only [List.getElem_map, List.getElem_range]
    rw [List.getD_eq_getElem l 0 (by simp at h2; omega)]

theorem allDrawnCards_eq (secrets : List Nat) (h4 : secrets.length = 4) :
    allDrawnCards secrets = (deckAssignment secrets).map indexToCard := by
  unfold allDrawnCards
  rw [h4]
  rw [show List.range 4 = [0, 1, 2, 3] from rfl]
  simp only [List.flatMap_cons, List.flatMap_nil, List.append_nil]
  rw [engineDraw_owned_ok secrets 0 h4, engineDraw_owned_ok secrets 1 h4,
    engineDraw_owned_ok secrets 2 h4, engineDraw_owned_ok secrets 3 h4]
  simp only []
  rw [extractCards_drawReply _ _ _
      (fun k hk => ⟨mem_ownedRange_lt_52 0 k (by omega) hk, hk⟩),
    extractCards_drawReply _ _ _
      (fun k hk => ⟨mem_ownedRange_lt_52 1 k (by omega) hk, hk⟩),
    extractCards_drawReply _ _ _
      (fun k hk => ⟨mem_ownedRange_lt_52 2 k (by omega) hk, hk⟩),
    extractCards_drawReply _ _ _
      (fun k hk => ⟨mem_ownedRange_lt_52 3 k (by omega) hk, hk⟩)]
  simp only [peerState]
  rw [← List.map_append, ← List.map_append, ← List.map_append]
  rw [show ownedRange 4 0 ++ (ownedRange 4 1 ++ (ownedRange 4 2 ++
      ownedRange 4 3)) = List.range 52 from by decide]
  exact map_indexToCard_getD _ (deckAssignment_length secrets)

/-! ## Bijection of the drawn cards (claim C1) -/

/-- C1: in every run in which all four peers complete init and shuffle
(`runSession` succeeds at each peer) and each peer draws its full owned
range, every draw succeeds and the union of the cards returned across the
four peers' draws is exactly the canonical 52-card deck — 52 distinct
rank-suit pairs, each appearing exactly once. -/
theorem draw_union_full_deck (secrets : List Nat) (h4 : secrets.length = 4) :
    runSession secrets = .ok ((List.range 4).map (peerState secrets)) ∧
    (∀ i : Fin 4, engineDraw (peerState secrets i) (ownedRange 4 i) =
      .ok (drawReply (peerState secrets i) (ownedRange 4 i))) ∧
    (allDrawnCards secrets).Perm fullDeck ∧
    (allDrawnCards secrets).Nodup ∧
    (allDrawnCards secrets).length = 52 := by
  have hperm : (allDrawnCards secrets).Perm fullDeck := by
    rw [allDrawnCards_eq secrets h4]
    exact (deckAssignment_perm secrets).map indexToCard
  refine ⟨runSession_ok secrets h4,
    fun i => engineDraw_owned_ok secrets i h4, hperm, ?_, ?_⟩
  · exact hperm.nodup_iff.mpr (by decide)
  · rw [hperm.length_eq]
    rfl

/-- Witness for `draw_union_full_deck` with contributions `[7, 21, 98, 4]`. -/
theorem draw_union_full_deck_witness :
    ([7, 21, 98, 4] : List Nat).length = 4 ∧
    (runSession [7, 21, 98, 4] =
        .ok ((List.range 4).map (peerState [7, 21, 98, 4])) ∧
      (∀ i : Fin 4, engineDraw (peerState [7, 21, 98, 4] i) (ownedRange 4 i) =
        .ok (drawReply (peerState [7, 21, 98, 4] i) (ownedRange 4 i))) ∧
      (allDrawnCards [7, 21, 98, 4]).Perm fullDeck ∧
      (allDrawnCards [7, 21, 98, 4]).Nodup ∧
      (allDrawnCards [7, 21, 98, 4]).length = 52) :=
  ⟨rfl, draw_union_full_deck [7, 21, 98, 4] rfl⟩

/-! ## Consistency of revealAll (claim C2) -/

/-- C2: after a completed shuffle, `revealAll` for the same in-range
position list succeeds at every one of the four peers with the very same
card sequence — the same card at the same position in the same order,
derived from the committed joint permutation — so any two peers' results
are identical. -/
theorem revealAll_consistent (secrets positions : List Nat)
    (h4 : secrets.length = 4) (hpos : ∀ p ∈ positions, p < 52) :
    runSession secrets = .ok ((List.range 4).map (peerState secrets)) ∧
    (∀ i : Fin 4, engineRevealAll (peerState secrets i) positions =
      .ok (positions.map (fun p =>
        indexToCard ((deckAssignment secrets).getD p 0)))) ∧
    (∀ i j : Fin 4,
      engineRevealAll (peerState secrets i) positions =
        engineRevealAll (peerState secrets j) positions) := by
  have hok : ∀ i : Fin 4, engineRevealAll (peerState secrets i) positions =
      .ok (positions.map (fun p =>
        indexToCard ((deckAssignment secrets).getD p 0))) := by
    intro i
    unfold engineRevealAll
    rw [if_neg (by simp [peerState])]
    rw [if_neg]
    · rfl
    · rw [not_not, List.all_eq_true]
      intro x hx
      simpa using hpos x hx
  exact ⟨runSession_ok secrets h4, hok,
    fun i j => (hok i).trans (hok j).symm⟩

/-- Witness for `revealAll_consistent` with contributions `[1, 2, 3, 4]`
and positions `[0, 13, 51]`. -/
theorem revealAll_consistent_witness :
    ([1, 2, 3, 4] : List Nat).length = 4 ∧
    (∀ p ∈ ([0, 13, 51] : List Nat), p < 52) ∧
    (runSession [1, 2, 3, 4] =
        .ok ((List.range 4).map (peerState [1, 2, 3, 4])) ∧
      (∀ i : Fin 4, engineRevealAll (peerState [1, 2, 3, 4] i) [0, 13, 51] =
        .ok (([0, 13, 51] : List Nat).map (fun p =>
          indexToCard ((deckAssignment [1, 2, 3, 4]).getD p 0)))) ∧
      (∀ i j : Fin 4,
        engineRevealAll (peerState [1, 2, 3, 4] i) [0, 13, 51] =
          engineRevealAll (peerState [1, 2, 3, 4] j) [0, 13, 51])) :=
  ⟨rfl, by decide, revealAll_consistent [1, 2, 3, 4] [0, 13, 51] rfl (by decide)⟩

/-! ## Shape of the draw reply (claim C3) -/

/-- C3: a successful draw over a peer's owned position set returns a
52-entry reply holding a card at exactly the requested owned positions and
`null` (`none`) at every other index: entry `k` is non-null iff `k` lies
in the requested owned range. -/
theorem draw_reply_null_iff (secrets : List Nat) (i : Fin 4)
    (h4 : secrets.length = 4) :
    engineDraw (peerState secrets i) (ownedRange 4 i) =
      .ok (drawReply (peerState secrets i) (ownedRange 4 i)) ∧
    (drawReply (peerState secrets i) (ownedRange 4 i)).length = 52 ∧
    ∀ k < 52,
      (((drawReply (peerState secrets i) (ownedRange 4 i)).getD k
          none).isSome = true ↔ k ∈ ownedRange 4 i) := by
  refine ⟨engineDraw_owned_ok secrets i h4, by simp [drawReply], ?_⟩
  intro k hk
  rw [drawReply_getD _ _ k hk]
  by_cases hmem : k ∈ ownedRange 4 i <;> simp [hmem]

/-- Witness for `draw_reply_null_iff` at peer 0 with contributions
`[2, 4, 6, 8]`. -/
theorem draw_reply_null_iff_witness :
    ([2, 4, 6, 8] : List Nat).length = 4 ∧
    (engineDraw (peerState [2, 4, 6, 8] (0 : Fin 4)) (ownedRange 4 (0 : Fin 4)) =
        .ok (drawReply (peerState [2, 4, 6, 8] (0 : Fin 4))
          (ownedRange 4 (0 : Fin 4))) ∧
      (drawReply (peerState [2, 4, 6, 8] (0 : Fin 4))
        (ownedRange 4 (0 : Fin 4))).length = 52 ∧
      ∀ k < 52,
        (((drawReply (peerState [2, 4, 6, 8] (0 : Fin 4))
            (ownedRange 4 (0 : Fin 4))).getD k none).isSome = true ↔
          k ∈ ownedRange 4 (0 : Fin 4))) :=
  ⟨rfl, draw_reply_null_iff [2, 4, 6, 8] 0 rfl⟩

/-! ## Rejection of mismatched reveals (claim C4) -/

/-- C4: when a peer opens, for some position, a deck index different from
the one bound by the commitment it published for that position during the
shuffle, the reveal fails with `VerificationError` at every one of the
four observers; the mismatched value is never accepted. -/
theorem reveal_mismatch_rejected (secrets : List Nat)
    (p claimedIdx claimedNonce : Nat)
    (hne : claimedIdx ≠ (deckAssignment secrets).getD p 0) :
    ∀ i : Fin 4,
      processReveal (peerState secrets i) p claimedIdx claimedNonce =
        .error .VerificationError := by
  intro i
  unfold processReveal
  rw [if_neg (by simp [peerState])]
  rw [if_pos]
  intro hcomm
  exact hne (Nat.pair_eq_pair.mp hcomm).1

/-- Witness for `reveal_mismatch_rejected`: claiming deck index 99 for
position 0 after a shuffle with contributions `[5, 6, 7, 8]`. -/
theorem reveal_mismatch_rejected_witness :
    (99 : Nat) ≠ (deckAssignment [5, 6, 7, 8]).getD 0 0 ∧
    ∀ i : Fin 4,
      processReveal (peerState [5, 6, 7, 8] i) 0 99 1234 =
        .error .VerificationError :=
  ⟨by decide, reveal_mismatch_rejected [5, 6, 7, 8] 0 99 1234 (by decide)⟩

/-! ## Idempotent terminate (claim C8) -/

/-- C8: `terminate` succeeds from any state, yields the `Terminated`
state, and calling it a second time is a no-op that succeeds with the
same terminal state rather than raising an error. -/
theorem terminate_idempotent (st : EngineState) :
    engineTerminate st = .ok (terminateState st) ∧
    (terminateState st).phase = .Terminated ∧
    engineTerminate (terminateState st) = .ok (terminateState st) :=
  ⟨rfl, rfl, rfl⟩

/-! ## Character and digit lemmas for the JSON round trip -/

theorem toNat_ofNat_valid (n : Nat) (h : n.isValidChar) :
    (Char.ofNat n).toNat = n := by
  unfold Char.ofNat
  rw [dif_pos h]
  rfl

theorem char_valid_range (c : Char) :
    c.toNat < 55296 ∨ (57343 < c.toNat ∧ c.toNat < 1114112) := by
  have h := c.valid
  simp only [UInt32.isValidChar, Nat.isValidChar] at h
  exact h

theorem char_toNat_inj (a b : Char) (h : a.toNat = b.toNat) : a = b := by
  have ha := Char.ofNat_toNat a
  rw [← ha, h, Char.ofNat_toNat]

theorem digitChar_toNat (d : Nat) (h : d < 10) :
    (digitChar d).toNat = 48 + d := by
  unfold digitChar
  refine toNat_ofNat_valid _ ?_
  unfold Nat.isValidChar
  left
  omega

theorem isDigitChar_digitChar (d : Nat) (h : d < 10) :
    isDigitChar (digitChar d) = true := by
  simp [isDigitChar, digitChar_toNat d h]
  omega

theorem digitVal_digitChar (d : Nat) (h : d < 10) :
    digitVal (digitChar d) = d := by
  simp [digitVal, digitChar_toNat d h]

theorem natToChars_digits (n : Nat) :
    ∀ c ∈ natToChars n, isDigitChar c = true := by
  induction n using Nat.strong_induction_on with
  | _ n ih =>
    rw [natToChars]
    split
    · next h =>
      intro c hc
      simp only [List.mem_singleton] at hc
      subst hc
      exact isDigitChar_digitChar n h
    · next h =>
      intro c hc
      rw [List.mem_append] at hc
      rcases hc with hc | hc
      · exact ih (n / 10) (Nat.div_lt_self (by omega) (by omega)) c hc
      · simp only [List.mem_singleton] at hc
        subst hc
        exact isDigitChar_digitChar _ (Nat.mod_lt _ (by omega))

theorem natToChars_ne_nil (n : Nat) : natToChars n ≠ [] := by
  rw [natToChars]
  split <;> simp

theorem digitsToNat_append (l : List Char) (c : Char) :
    digitsToNat (l ++ [c]) = 10 * digitsToNat l + digitVal c := by
  unfold digitsToNat
  rw [List.foldl_append]
  rfl

theorem digitsToNat_natToChars (n : Nat) :
    digitsToNat (natToChars n) = n := by
  induction n using Nat.strong_induction_on with
  | _ n ih =>
    rw [natToChars]
    split
    · next h =>
      show digitsToNat ([] ++ [digitChar n]) = n
      rw [digitsToNat_append, digitVal_digitChar n h]
      unfold digitsToNat
      simp
    · next h =>
      rw [digitsToNat_append,
        ih (n / 10) (Nat.div_lt_self (by omega) (by omega)),
        digitVal_digitChar _ (Nat.mod_lt _ (by omega))]
      omega

theorem takeWhile_append_of_all (p : Char → Bool) (l rest : List Char)
    (hall : ∀ c ∈ l, p c = true) :
    (l ++ rest).takeWhile p = l ++ rest.takeWhile p ∧
    (l ++ rest).dropWhile p = rest.dropWhile p := by
  induction l with
  | nil => simp
  | cons c l ih =>
    have hc := hall c (by simp)
    have ih' := ih (fun x hx => hall x (by simp [hx]))
    simp only [List.cons_append, List.takeWhile_cons, List.dropWhile_cons,
      hc, if_true, ih'.1, ih'.2]
    simp

theorem restOk_digit_stop (rest : List Char) (hr : restOk rest) :
    rest.takeWhile isDigitChar = [] ∧ rest.dropWhile isDigitChar = rest := by
  rcases hr with rfl | ⟨d, t, rfl, hd⟩
  · simp
  · have hdd : isDigitChar d = false := by
      rcases hd with rfl | rfl | rfl <;> decide
    simp [List.takeWhile_cons, List.dropWhile_cons, hdd]

theorem parseIntTok_intToChars (n : Int) (rest : List Char)
    (hr : restOk rest) :
    parseIntTok (intToChars n ++ rest) = some (n, rest) := by
  have hstop := restOk_digit_stop rest hr
  unfold intToChars
  split
  · next hn =>
    rw [List.cons_append]
    show parseIntTok ('-' :: (natToChars (-n).toNat ++ rest)) = _
    simp only [parseIntTok, if_true]
    have htw := takeWhile_append_of_all isDigitChar (natToChars (-n).toNat)
      rest (natToChars_digits _)
    simp only [htw.1, htw.2, hstop.1, hstop.2, List.append_nil]
    rw [if_neg (natToChars_ne_nil _)]
    rw [digitsToNat_natToChars]
    have : ((-n).toNat : Int) = -n := Int.toNat_of_nonneg (by omega)
    rw [this]
    simp
  · next hn =>
    obtain ⟨c, t, hct⟩ : ∃ c t, natToChars n.toNat = c :: t := by
      cases h : natToChars n.toNat with
      | nil => exact absurd h (natToChars_ne_nil _)
      | cons c t => exact ⟨c, t, rfl⟩
    have hcd : isDigitChar c = true :=
      natToChars_digits n.toNat c (by rw [hct]; simp)
    have hcne : ¬ c = '-' := by
      intro hc
      subst hc
      simp [isDigitChar] at hcd
    rw [hct, List.cons_append]
    simp only [parseIntTok]
    rw [if_neg hcne]
    have htw := takeWhile_append_of_all isDigitChar (c :: t) rest
      (fun x hx => natToChars_digits n.toNat x (by rw [hct]; exact hx))
    rw [show c :: (t ++ rest) = (c :: t) ++ rest from rfl]
    simp only [htw.1, htw.2, hstop.1, hstop.2, List.append_nil]
    rw [if_neg (by simp)]
    rw [← hct, digitsToNat_natToChars]
    have : (n.toNat : Int) = n := Int.toNat_of_nonneg (by omega)
    rw [this]

/-! ## Hex and string-escape round trip -/

theorem hexVal_hexDigitChar (d : Nat) (h : d < 16) :
    hexVal (hexDigitChar d) = some d := by
  unfold hexVal hexDigitChar
  by_cases h10 : d < 10
  · rw [if_pos h10,
      toNat_ofNat_valid (48 + d) (by unfold Nat.isValidChar; left; omega)]
    rw [if_pos (by omega)]
    congr 1
    omega
  · rw [if_neg h10,
      toNat_ofNat_valid (87 + d) (by unfold Nat.isValidChar; left; omega)]
    rw [if_neg (by omega), if_pos (by omega)]
    congr 1
    omega

theorem parseHex4_hex4 (n : Nat) (h : n < 65536) (rest : List Char) :
    parseHex4 (hex4 n ++ rest) = some (n, rest) := by
  show parseHex4 (hexDigitChar (n / 4096 % 16) :: hexDigitChar (n / 256 % 16)
    :: hexDigitChar (n / 16 % 16) :: hexDigitChar (n % 16) :: rest) = _
  simp only [parseHex4]
  rw [hexVal_hexDigitChar _ (Nat.mod_lt _ (by omega)),
    hexVal_hexDigitChar _ (Nat.mod_lt _ (by omega)),
    hexVal_hexDigitChar _ (Nat.mod_lt _ (by omega)),
    hexVal_hexDigitChar _ (Nat.mod_lt _ (by omega))]
  dsimp only
  have : 4096 * (n / 4096 % 16) + 256 * (n / 256 % 16) + 16 * (n / 16 % 16) +
      n % 16 = n := by omega
  rw [this]

theorem hex4_length (n : Nat) : (hex4 n).length = 4 := rfl

theorem parseStringBody_step_raw (fuel : Nat) (c : Char) (cs : List Char)
    (h1 : ¬ c = '"') (h2 : ¬ c = '\\') (h3 : ¬ c.toNat < 32) :
    parseStringBody (fuel + 1) (c :: cs) =
      (parseStringBody fuel cs).map (fun p => (c :: p.1, p.2)) := by
  simp only [parseStringBody]
  rw [if_neg h1, if_neg h2, if_neg h3]

theorem parseStringBody_step_esc (fuel : Nat) (e : Char) (cs : List Char)
    (c' : Char) (he : ¬ e = 'u') (hesc : escapeChar e = some c') :
    parseStringBody (fuel + 1) ('\\' :: e :: cs) =
      (parseStringBody fuel cs).map (fun p => (c' :: p.1, p.2)) := by
  simp only [parseStringBody]
  rw [if_true, if_neg he, hesc, Option.some_bind, if_neg (by decide)]

theorem parseStringBody_step_u_bmp (fuel n : Nat) (cs : List Char)
    (hn : n < 65536) (hno : ¬(55296 ≤ n ∧ n ≤ 56319))
    (hno2 : ¬(56320 ≤ n ∧ n ≤ 57343)) :
    parseStringBody (fuel + 1) ('\\' :: 'u' :: (hex4 n ++ cs)) =
      (parseStringBody fuel cs).map (fun p => (Char.ofNat n :: p.1, p.2)) := by
  simp only [parseStringBody]
  rw [if_true, if_true, parseHex4_hex4 n hn cs, Option.some_bind]
  dsimp only
  rw [if_neg hno, if_neg hno2, if_neg (by decide)]

theorem parseStringBody_step_u_pair (fuel n m : Nat) (cs : List Char)
    (hn : 55296 ≤ n ∧ n ≤ 56319) (hm : 56320 ≤ m ∧ m ≤ 57343) :
    parseStringBody (fuel + 1)
        ('\\' :: 'u' :: (hex4 n ++ ('\\' :: 'u' :: (hex4 m ++ cs)))) =
      (parseStringBody fuel cs).map (fun p =>
        (Char.ofNat (65536 + (n - 55296) * 1024 + (m - 56320)) :: p.1,
          p.2)) := by
  simp only [parseStringBody]
  rw [if_true, if_true,
    parseHex4_hex4 n (by omega) ('\\' :: 'u' :: (hex4 m ++ cs)),
    Option.some_bind]
  dsimp only
  rw [if_pos hn, if_pos (by decide : ('\\' : Char) = '\\' ∧ ('u' : Char) = 'u'),
    parseHex4_hex4 m (by omega) cs, Option.some_bind]
  dsimp only
  rw [if_pos hm, if_neg (by decide)]

theorem encodeStringBody_cons (c : Char) (s : List Char) :
    encodeStringBody (c :: s) = encodeJsonChar c ++ encodeStringBody s := by
  simp [encodeStringBody]

theorem parseStringBody_encode (s : List Char) :
    ∀ (fuel : Nat) (rest : List Char),
      (encodeStringBody s).length + 1 ≤ fuel →
      parseStringBody fuel (encodeStringBody s ++ '"' :: rest) =
        some (s, rest) := by
  induction s with
  | nil =>
    intro fuel rest hf
    cases fuel with
    | zero => omega
    | succ f =>
      show parseStringBody (f + 1) ('"' :: rest) = some ([], rest)
      simp only [parseStringBody]
      rw [if_true]
  | cons c s ih =>
    intro fuel rest hf
    rw [encodeStringBody_cons] at hf ⊢
    rw [List.append_assoc]
    rw [List.length_append] at hf
    unfold encodeJsonChar at hf ⊢
    by_cases hq : c = '"'
    · subst hq
      rw [if_pos rfl] at hf ⊢
      cases fuel with
      | zero => simp at hf
      | succ f =>
        rw [show (['\\', '"'] : List Char) ++ (encodeStringBody s ++
          '"' :: rest) = '\\' :: '"' :: (encodeStringBody s ++ '"' :: rest)
          from rfl]
        rw [parseStringBody_step_esc f '"' _ '"' (by decide) rfl]
        rw [ih f rest (by simp at hf; omega)]; rfl
    · rw [if_neg hq] at hf ⊢
      by_cases hb : c = '\\'
      · subst hb
        rw [if_pos rfl] at hf ⊢
        cases fuel with
        | zero => simp at hf
        | succ f =>
          rw [show (['\\', '\\'] : List Char) ++ (encodeStringBody s ++
            '"' :: rest) = '\\' :: '\\' :: (encodeStringBody s ++ '"' :: rest)
            from rfl]
          rw [parseStringBody_step_esc f '\\' _ '\\' (by decide) rfl]
          rw [ih f rest (by simp at hf; omega)]; rfl
      · rw [if_neg hb] at hf ⊢
        by_cases h8 : c.toNat = 8
        · rw [if_pos h8] at hf ⊢
          cases fuel with
          | zero => simp at hf
          | succ f =>
            rw [show (['\\', 'b'] : List Char) ++ (encodeStringBody s ++
              '"' :: rest) = '\\' :: 'b' :: (encodeStringBody s ++ '"' :: rest)
              from rfl]
            rw [parseStringBody_step_esc f 'b' _ (Char.ofNat 8) (by decide)
              rfl]
            rw [ih f rest (by simp at hf; omega)]
            have hc : Char.ofNat 8 = c := by
              apply char_toNat_inj
              rw [toNat_ofNat_valid 8 (by unfold Nat.isValidChar; left; omega),
                h8]
            rw [hc]; rfl
        · rw [if_neg h8] at hf ⊢
          by_cases h9 : c.toNat = 9
          · rw [if_pos h9] at hf ⊢
            cases fuel with
            | zero => simp at hf
            | succ f =>
              rw [show (['\\', 't'] : List Char) ++ (encodeStringBody s ++
                '"' :: rest) = '\\' :: 't' ::
                (encodeStringBody s ++ '"' :: rest) from rfl]
              rw [parseStringBody_step_esc f 't' _ (Char.ofNat 9) (by decide)
                rfl]
              rw [ih f rest (by simp at hf; omega)]
              have hc : Char.ofNat 9 = c := by
                apply char_toNat_inj
                rw [toNat_ofNat_valid 9
                  (by unfold Nat.isValidChar; left; omega), h9]
              rw [hc]; rfl
          · rw [if_neg h9] at hf ⊢
            by_cases h10 : c.toNat = 10
            · rw [if_pos h10] at hf ⊢
              cases fuel with
              | zero => simp at hf
              | succ f =>
                rw [show (['\\', 'n'] : List Char) ++ (encodeStringBody s ++
                  '"' :: rest) = '\\' :: 'n' ::
                  (encodeStringBody s ++ '"' :: rest) from rfl]
                rw [parseStringBody_step_esc f 'n' _ (Char.ofNat 10)
                  (by decide) rfl]
                rw [ih f rest (by simp at hf; omega)]
                have hc : Char.ofNat 10 = c := by
                  apply char_toNat_inj
                  rw [toNat_ofNat_valid 10
                    (by unfold Nat.isValidChar; left; omega), h10]
                rw [hc]; rfl
            · rw [if_neg h10] at hf ⊢
              by_cases h12 : c.toNat = 12
              · rw [if_pos h12] at hf ⊢
                cases fuel with
                | zero => simp at hf
                | succ f =>
                  rw [show (['\\', 'f'] : List Char) ++ (encodeStringBody s ++
                    '"' :: rest) = '\\' :: 'f' ::
                    (encodeStringBody s ++ '"' :: rest) from rfl]
                  rw [parseStringBody_step_esc f 'f' _ (Char.ofNat 12)
                    (by decide) rfl]
                  rw [ih f rest (by simp at hf; omega)]
                  have hc : Char.ofNat 12 = c := by
                    apply char_toNat_inj
                    rw [toNat_ofNat_valid 12
                      (by unfold Nat.isValidChar; left; omega), h12]
                  rw [hc]; rfl
              · rw [if_neg h12] at hf ⊢
                by_cases h13 : c.toNat = 13
                · rw [if_pos h13] at hf ⊢
                  cases fuel with
                  | zero => simp at hf
                  | succ f =>
                    rw [show (['\\', 'r'] : List Char) ++
                      (encodeStringBody s ++ '"' :: rest) = '\\' :: 'r' ::
                      (encodeStringBody s ++ '"' :: rest) from rfl]
                    rw [parseStringBody_step_esc f 'r' _ (Char.ofNat 13)
                      (by decide) rfl]
                    rw [ih f rest (by simp at hf; omega)]
                    have hc : Char.ofNat 13 = c := by
                      apply char_toNat_inj
                      rw [toNat_ofNat_valid 13
                        (by unfold Nat.isValidChar; left; omega), h13]
                    rw [hc]; rfl
                · rw [if_neg h13] at hf ⊢
                  by_cases hprint : c.toNat < 32 ∨ 126 < c.toNat
                  · rw [if_pos hprint] at hf ⊢
                    by_cases hbmp : c.toNat < 65536
                    · rw [if_pos hbmp] at hf ⊢
                      cases fuel with
                      | zero => simp at hf
                      | succ f =>
                        rw [show ('\\' :: 'u' :: hex4 c.toNat) ++
                          (encodeStringBody s ++ '"' :: rest) = '\\' :: 'u' ::
                          (hex4 c.toNat ++ (encodeStringBody s ++ '"' :: rest))
                          from by simp]
                        have hval := char_valid_range c
                        rw [parseStringBody_step_u_bmp f c.toNat _ hbmp
                          (by omega) (by omega)]
                        rw [ih f rest (by simp [hex4_length] at hf ⊢; omega)]
                        rw [Char.ofNat_toNat]; rfl
                    · rw [if_neg hbmp] at hf ⊢
                      cases fuel with
                      | zero => simp at hf
                      | succ f =>
                        have hval := char_valid_range c
                        rw [show (('\\' :: 'u' ::
                            hex4 (55296 + (c.toNat - 65536) / 1024)) ++
                          ('\\' :: 'u' ::
                            hex4 (56320 + (c.toNat - 65536) % 1024))) ++
                          (encodeStringBody s ++ '"' :: rest) = '\\' :: 'u' ::
                          (hex4 (55296 + (c.toNat - 65536) / 1024) ++
                            ('\\' :: 'u' ::
                              (hex4 (56320 + (c.toNat - 65536) % 1024) ++
                                (encodeStringBody s ++ '"' :: rest))))
                          from by simp]
                        rw [parseStringBody_step_u_pair f _ _ _
                          (by omega) (by omega)]
                        rw [ih f rest (by simp [hex4_length] at hf ⊢; omega)]
                        have hc : Char.ofNat (65536 +
                            (55296 + (c.toNat - 65536) / 1024 - 55296) * 1024 +
                            (56320 + (c.toNat - 65536) % 1024 - 56320)) = c := by
                          have harith : 65536 +
                              (55296 + (c.toNat - 65536) / 1024 - 55296) * 1024 +
                              (56320 + (c.toNat - 65536) % 1024 - 56320) =
                              c.toNat := by omega
                          rw [harith, Char.ofNat_toNat]
                        rw [hc]; rfl
                  · rw [if_neg hprint] at hf ⊢
                    cases fuel with
                    | zero => simp at hf
                    | succ f =>
                      rw [show ([c] : List Char) ++ (encodeStringBody s ++
                        '"' :: rest) = c :: (encodeStringBody s ++ '"' :: rest)
                        from rfl]
                      rw [parseStringBody_step_raw f c _ hq hb (by omega)]
                      rw [ih f rest (by simp at hf; omega)]; rfl

/-! ## Whitespace, head characters, fuel bounds and dict lemmas -/

theorem skipWs_cons_of_not_ws (c : Char) (l : List Char)
    (h : isWsChar c = false) : skipWs (c :: l) = c :: l := by
  unfold skipWs
  rw [h]
  simp

theorem skipWs_space (l : List Char) : skipWs (' ' :: l) = skipWs l := by
  show (if isWsChar ' ' = true then skipWs l else ' ' :: l) = skipWs l
  rw [show isWsChar ' ' = true from rfl, if_pos rfl]

theorem ne_char_of_toNat (c k : Char) (h : c.toNat ≠ k.toNat) : ¬ c = k :=
  fun he => h (by rw [he])

theorem digit_head_props (c : Char) (h : isDigitChar c = true) :
    isWsChar c = false ∧ ¬ c = ']' ∧ ¬ c = ',' ∧ ¬ c = rbrace ∧
    ¬ c = '-' ∧ ¬ c = '"' ∧ ¬ c = '[' ∧ ¬ c = lbrace ∧
    ¬ c = 'n' ∧ ¬ c = 't' ∧ ¬ c = 'f' := by
  simp only [isDigitChar, Bool.and_eq_true, decide_eq_true_eq] at h
  have h32 : (' ' : Char).toNat = 32 := rfl
  have h9 : (Char.ofNat 9).toNat = 9 := rfl
  have h10 : (Char.ofNat 10).toNat = 10 := rfl
  have h13 : (Char.ofNat 13).toNat = 13 := rfl
  refine ⟨?_, ?_, ?_, ?_, ?_, ?_, ?_, ?_, ?_, ?_, ?_⟩
  · simp only [isWsChar, Bool.or_eq_false_iff, decide_eq_false_iff_not]
    exact ⟨⟨⟨ne_char_of_toNat _ _ (by omega), ne_char_of_toNat _ _ (by omega)⟩,
      ne_char_of_toNat _ _ (by omega)⟩, ne_char_of_toNat _ _ (by omega)⟩
  · exact ne_char_of_toNat _ _ (by rw [show (']' : Char).toNat = 93 from rfl]; omega)
  · exact ne_char_of_toNat _ _ (by rw [show (',' : Char).toNat = 44 from rfl]; omega)
  · exact ne_char_of_toNat _ _ (by rw [show rbrace.toNat = 125 from rfl]; omega)
  · exact ne_char_of_toNat _ _ (by rw [show ('-' : Char).toNat = 45 from rfl]; omega)
  · exact ne_char_of_toNat _ _ (by rw [show ('"' : Char).toNat = 34 from rfl]; omega)
  · exact ne_char_of_toNat _ _ (by rw [show ('[' : Char).toNat = 91 from rfl]; omega)
  · exact ne_char_of_toNat _ _ (by rw [show lbrace.toNat = 123 from rfl]; omega)
  · exact ne_char_of_toNat _ _ (by rw [show ('n' : Char).toNat = 110 from rfl]; omega)
  · exact ne_char_of_toNat _ _ (by rw [show ('t' : Char).toNat = 116 from rfl]; omega)
  · exact ne_char_of_toNat _ _ (by rw [show ('f' : Char).toNat = 102 from rfl]; omega)

theorem intToChars_head (n : Int) :
    ∃ c t, intToChars n = c :: t ∧
      (c = '-' ∨ isDigitChar c = true) := by
  unfold intToChars
  split
  · exact ⟨'-', _, rfl, Or.inl rfl⟩
  · obtain ⟨c, t, hct⟩ : ∃ c t, natToChars n.toNat = c :: t := by
      cases h : natToChars n.toNat with
      | nil => exact absurd h (natToChars_ne_nil _)
      | cons c t => exact ⟨c, t, rfl⟩
    exact ⟨c, t, hct,
      Or.inr (natToChars_digits n.toNat c (by rw [hct]; simp))⟩

theorem dumpsVal_head (v : JsonVal) :
    ∃ c t, dumpsVal v = c :: t ∧ isWsChar c = false ∧ ¬ c = ']' ∧
      ¬ c = ',' ∧ ¬ c = rbrace := by
  cases v with
  | null => exact ⟨'n', _, rfl, by decide, by decide, by decide, by decide⟩
  | bool b =>
    cases b with
    | true => exact ⟨'t', _, rfl, by decide, by decide, by decide, by decide⟩
    | false => exact ⟨'f', _, rfl, by decide, by decide, by decide, by decide⟩
  | num n =>
    obtain ⟨c, t, hct, hc⟩ := intToChars_head n
    refine ⟨c, t, by simp only [dumpsVal]; exact hct, ?_, ?_, ?_, ?_⟩ <;>
      rcases hc with rfl | hd
    · decide
    · exact (digit_head_props c hd).1
    · decide
    · exact (digit_head_props c hd).2.1
    · decide
    · exact (digit_head_props c hd).2.2.1
    · decide
    · exact (digit_head_props c hd).2.2.2.1
  | str s =>
    exact ⟨'"', _, by simp only [dumpsVal]; rfl, by decide, by decide,
      by decide, by decide⟩
  | arr xs =>
    cases xs with
    | nil => exact ⟨'[', _, rfl, by decide, by decide, by decide, by decide⟩
    | cons x xs =>
      exact ⟨'[', _, by simp only [dumpsVal]; rfl, by decide, by decide,
        by decide, by decide⟩
  | obj kvs =>
    cases kvs with
    | nil => exact ⟨lbrace, _, rfl, by decide, by decide, by decide, by decide⟩
    | cons kv kvs =>
      exact ⟨lbrace, _, by simp only [dumpsVal]; rfl, by decide, by decide,
        by decide, by decide⟩

theorem skipWs_dumpsVal (v : JsonVal) (X : List Char) :
    skipWs (dumpsVal v ++ X) = dumpsVal v ++ X := by
  obtain ⟨c, t, hct, hws, _, _, _⟩ := dumpsVal_head v
  rw [hct, List.cons_append, skipWs_cons_of_not_ws _ _ hws]

theorem encodeString_length (s : List Char) :
    (encodeString s).length = (encodeStringBody s).length + 2 := by
  simp [encodeString]

mutual

theorem jsizeVal_le (v : JsonVal) :
    jsizeVal v ≤ (dumpsVal v).length + 1 := by
  cases v with
  | null => simp [jsizeVal, dumpsVal]
  | bool b => cases b <;> simp [jsizeVal, dumpsVal]
  | num n => simp [jsizeVal]
  | str s => simp [jsizeVal, dumpsVal, encodeString]
  | arr xs =>
    cases xs with
    | nil => simp [jsizeVal, jsizeList, dumpsVal]
    | cons x xs =>
      have h1 := jsizeVal_le x
      have h2 := jsizeList_le xs
      simp only [jsizeVal, jsizeList, dumpsVal, List.length_cons,
        List.length_append, List.length_singleton]
      omega
  | obj kvs =>
    cases kvs with
    | nil => simp [jsizeVal, jsizeMembers, dumpsVal]
    | cons kv kvs =>
      have h1 := jsizeVal_le kv.2
      have h2 := jsizeMembers_le kvs
      have h3 : (dumpsMember kv).length =
          (encodeString kv.1).length + 2 + (dumpsVal kv.2).length := by
        cases kv with
        | mk k v2 => simp [dumpsMember]; omega
      have h4 : 2 ≤ (encodeString kv.1).length := by
        rw [encodeString_length]
        omega
      simp only [jsizeVal, jsizeMembers, dumpsVal, List.length_cons,
        List.length_append, List.length_singleton]
      omega

theorem jsizeList_le (xs : List JsonVal) :
    jsizeList xs ≤ (dumpsArrTail xs).length + 1 := by
  cases xs with
  | nil => simp [jsizeList, dumpsArrTail]
  | cons x xs =>
    have h1 := jsizeVal_le x
    have h2 := jsizeList_le xs
    simp only [jsizeList, dumpsArrTail, List.length_cons, List.length_append]
    omega

theorem jsizeMembers_le (kvs : List (List Char × JsonVal)) :
    jsizeMembers kvs ≤ (dumpsObjTail kvs).length + 1 := by
  cases kvs with
  | nil => simp [jsizeMembers, dumpsObjTail]
  | cons kv kvs =>
    have h1 := jsizeVal_le kv.2
    have h2 := jsizeMembers_le kvs
    have h3 : (dumpsMember kv).length =
        (encodeString kv.1).length + 2 + (dumpsVal kv.2).length := by
      cases kv with
      | mk k v2 => simp [dumpsMember]; omega
    simp only [jsizeMembers, dumpsObjTail, List.length_cons,
      List.length_append]
    omega

end

theorem dictInsert_not_mem (d : List (List Char × JsonVal))
    (kv : List Char × JsonVal) (h : kv.1 ∉ d.map Prod.fst) :
    dictInsert d kv = d ++ [kv] := by
  induction d with
  | nil => rfl
  | cons e d ih =>
    obtain ⟨k', v'⟩ := e
    simp only [List.map_cons, List.mem_cons] at h
    push_neg at h
    unfold dictInsert
    rw [if_neg (fun he => h.1 he.symm)]
    rw [ih h.2]
    simp

theorem foldl_dictInsert (ps : List (List Char × JsonVal)) :
    ∀ acc, ((acc ++ ps).map Prod.fst).Nodup →
      ps.foldl dictInsert acc = acc ++ ps := by
  induction ps with
  | nil => intro acc _; simp
  | cons kv ps ih =>
    intro acc h
    rw [List.foldl_cons]
    have hsplit : (acc.map Prod.fst).Nodup ∧
        ((kv :: ps).map Prod.fst).Nodup ∧
        (acc.map Prod.fst).Disjoint ((kv :: ps).map Prod.fst) := by
      rw [List.map_append] at h
      exact List.nodup_append.mp h
    have hnot : kv.1 ∉ acc.map Prod.fst := by
      intro hmem
      exact hsplit.2.2 hmem (by simp)
    rw [dictInsert_not_mem acc kv hnot]
    rw [ih (acc ++ [kv]) (by simpa using h)]
    simp

theorem dictOf_self (ps : List (List Char × JsonVal))
    (h : (ps.map Prod.fst).Nodup) : dictOf ps = ps := by
  unfold dictOf
  rw [foldl_dictInsert ps [] (by simpa using h)]
  simp

/-! ## The parser inverts the serialiser -/

theorem jsizeVal_pos (v : JsonVal) : 1 ≤ jsizeVal v := by
  cases v <;> simp [jsizeVal]

theorem dumpsMember_shape (kv : List Char × JsonVal) (X : List Char) :
    dumpsMember kv ++ X = '"' :: (encodeStringBody kv.1 ++ '"' ::
      (':' :: ' ' :: (dumpsVal kv.2 ++ X))) := by
  obtain ⟨k, v⟩ := kv
  simp [dumpsMember, encodeString, List.append_assoc]

theorem restOk_dumpsArrTail (xs : List JsonVal) (rest : List Char) :
    restOk (dumpsArrTail xs ++ ']' :: rest) := by
  cases xs with
  | nil => exact Or.inr ⟨']', rest, rfl, Or.inr (Or.inl rfl)⟩
  | cons x xs =>
    exact Or.inr ⟨',', ' ' :: (dumpsVal x ++ (dumpsArrTail xs ++ ']' :: rest)),
      by simp [dumpsArrTail, List.append_assoc], Or.inl rfl⟩

theorem restOk_dumpsObjTail (kvs : List (List Char × JsonVal))
    (rest : List Char) :
    restOk (dumpsObjTail kvs ++ rbrace :: rest) := by
  cases kvs with
  | nil => exact Or.inr ⟨rbrace, rest, rfl, Or.inr (Or.inr rfl)⟩
  | cons kv kvs =>
    exact Or.inr ⟨',',
      ' ' :: (dumpsMember kv ++ (dumpsObjTail kvs ++ rbrace :: rest)),
      by simp [dumpsObjTail, List.append_assoc], Or.inl rfl⟩

theorem band_split (a b : Bool) (h : (a && b) = true) :
    a = true ∧ b = true :=
  ⟨Bool.and_elim_left h, Bool.and_elim_right h⟩

theorem parse_roundtrip_fuel : ∀ fuel : Nat,
    (∀ (v : JsonVal) (rest : List Char), wfVal v = true →
      jsizeVal v ≤ fuel → restOk rest →
      parseVal fuel (dumpsVal v ++ rest) = some (v, rest)) ∧
    (∀ (x : JsonVal) (xs : List JsonVal) (rest : List Char),
      wfVal x = true → wfList xs = true →
      jsizeList (x :: xs) ≤ fuel → restOk rest →
      parseArrElems fuel (dumpsVal x ++ (dumpsArrTail xs ++ ']' :: rest)) =
        some (x :: xs, rest)) ∧
    (∀ (kv : List Char × JsonVal) (kvs : List (List Char × JsonVal))
        (rest : List Char),
      wfVal kv.2 = true → wfMembers kvs = true →
      jsizeMembers (kv :: kvs) ≤ fuel → restOk rest →
      parseObjMembers fuel
          (dumpsMember kv ++ (dumpsObjTail kvs ++ rbrace :: rest)) =
        some (kv :: kvs, rest)) := by
  intro fuel
  induction fuel with
  | zero =>
    refine ⟨fun v rest _ hf _ => ?_, fun x xs rest _ _ hf _ => ?_,
      fun kv kvs rest _ _ hf _ => ?_⟩
    · exact absurd hf (by have := jsizeVal_pos v; omega)
    · exact absurd hf (by simp [jsizeList])
    · exact absurd hf (by simp [jsizeMembers])
  | succ fuel ih =>
    obtain ⟨ihv, iha, iho⟩ := ih
    refine ⟨?_, ?_, ?_⟩
    · -- parseVal
      intro v rest hw hf hr
      cases v with
      | null => rfl
      | bool b => cases b <;> rfl
      | num n =>
        obtain ⟨c, t, hct, hc⟩ := intToChars_head n
        rw [show dumpsVal (.num n) = intToChars n from rfl, hct,
          List.cons_append]
        have hprops : ¬ c = 'n' ∧ ¬ c = 't' ∧ ¬ c = 'f' ∧ ¬ c = '"' ∧
            ¬ c = '[' ∧ ¬ c = lbrace ∧ (c = '-' || isDigitChar c) = true := by
          rcases hc with rfl | hd
          · exact ⟨by decide, by decide, by decide, by decide, by decide,
              by decide, by decide⟩
          · have hp := digit_head_props c hd
            exact ⟨hp.2.2.2.2.2.2.2.2.1, hp.2.2.2.2.2.2.2.2.2.1,
              hp.2.2.2.2.2.2.2.2.2.2, hp.2.2.2.2.2.1, hp.2.2.2.2.2.2.1,
              hp.2.2.2.2.2.2.2.1, by simp [hd]⟩
        simp only [parseVal]
        rw [if_neg hprops.1, if_neg hprops.2.1, if_neg hprops.2.2.1,
          if_neg hprops.2.2.2.1, if_neg hprops.2.2.2.2.1,
          if_neg hprops.2.2.2.2.2.1, if_pos hprops.2.2.2.2.2.2]
        rw [← List.cons_append, ← hct, parseIntTok_intToChars n rest hr]
        rfl
      | str s =>
        rw [show dumpsVal (.str s) ++ rest =
          '"' :: (encodeStringBody s ++ '"' :: rest) from by
            simp [dumpsVal, encodeString, List.append_assoc]]
        simp only [parseVal]
        rw [parseStringBody_encode s _ rest (by
          simp only [List.length_append, List.length_cons]
          omega)]
        rfl
      | arr xs =>
        cases xs with
        | nil => rfl
        | cons x xs =>
          rw [show dumpsVal (.arr (x :: xs)) ++ rest =
            '[' :: (dumpsVal x ++ (dumpsArrTail xs ++ ']' :: rest)) from by
              simp [dumpsVal, List.append_assoc]]
          simp only [parseVal]
          obtain ⟨c, t, hct, hws, hbr, _, _⟩ := dumpsVal_head x
          rw [show skipWs (dumpsVal x ++ (dumpsArrTail xs ++ ']' :: rest)) =
            dumpsVal x ++ (dumpsArrTail xs ++ ']' :: rest) from
            skipWs_dumpsVal x _]
          rw [hct, List.cons_append]
          dsimp only
          rw [if_neg hbr]
          rw [← List.cons_append, ← hct]
          have hwf : wfVal x = true ∧ wfList xs = true := by
            have : wfVal (.arr (x :: xs)) = wfList (x :: xs) := rfl
            rw [this] at hw
            have : wfList (x :: xs) = (wfVal x && wfList xs) := rfl
            rw [this] at hw
            exact ⟨(band_split _ _ hw).1, (band_split _ _ hw).2⟩
          rw [iha x xs rest hwf.1 hwf.2 (by
            have : jsizeVal (.arr (x :: xs)) = 1 + jsizeList (x :: xs) := rfl
            omega) hr]
          rfl
      | obj kvs =>
        cases kvs with
        | nil => rfl
        | cons kv kvs =>
          rw [show dumpsVal (.obj (kv :: kvs)) ++ rest =
            lbrace :: (dumpsMember kv ++ (dumpsObjTail kvs ++
              rbrace :: rest)) from by
              simp [dumpsVal, List.append_assoc]]
          simp only [parseVal]
          rw [if_true]
          rw [dumpsMember_shape]
          rw [skipWs_cons_of_not_ws _ _ (by decide)]
          dsimp only
          rw [if_neg (by decide : ¬ ('"' : Char) = rbrace)]
          rw [← dumpsMember_shape]
          have hwnd : ((kv :: kvs).map Prod.fst).Nodup ∧ wfVal kv.2 = true ∧
              wfMembers kvs = true := by
            have : wfVal (.obj (kv :: kvs)) =
              (decide (((kv :: kvs).map Prod.fst).Nodup) &&
                wfMembers (kv :: kvs)) := rfl
            rw [this] at hw
            have h2 := band_split _ _ hw
            have : wfMembers (kv :: kvs) = (wfVal kv.2 && wfMembers kvs) := by
              obtain ⟨k, v2⟩ := kv
              rfl
            rw [this] at h2
            exact ⟨of_decide_eq_true h2.1, (band_split _ _ h2.2).1,
              (band_split _ _ h2.2).2⟩
          rw [iho kv kvs rest hwnd.2.1 hwnd.2.2 (by
            have : jsizeVal (.obj (kv :: kvs)) =
              1 + jsizeMembers (kv :: kvs) := rfl
            omega) hr]
          simp only [Option.map_some']
          rw [dictOf_self _ hwnd.1]
          rw [if_neg (by decide : ¬ lbrace = 'n'),
            if_neg (by decide : ¬ lbrace = 't'),
            if_neg (by decide : ¬ lbrace = 'f'),
            if_neg (by decide : ¬ lbrace = '"'),
            if_neg (by decide : ¬ lbrace = '[')]
    · -- parseArrElems
      intro x xs rest hwx hwxs hf hr
      simp only [parseArrElems]
      have hjx : jsizeVal x ≤ fuel := by
        have : jsizeList (x :: xs) =
          1 + max (jsizeVal x) (jsizeList xs) := rfl
        omega
      rw [ihv x (dumpsArrTail xs ++ ']' :: rest) hwx hjx
        (restOk_dumpsArrTail xs rest)]
      try simp only []
      cases xs with
      | nil =>
        rw [show dumpsArrTail ([] : List JsonVal) ++ ']' :: rest =
          ']' :: rest from rfl]
        rw [skipWs_cons_of_not_ws _ _ (by decide)]
        rfl
      | cons x' xs' =>
        rw [show dumpsArrTail (x' :: xs') ++ ']' :: rest =
          ',' :: ' ' :: (dumpsVal x' ++ (dumpsArrTail xs' ++ ']' :: rest))
          from by simp [dumpsArrTail, List.append_assoc]]
        rw [skipWs_cons_of_not_ws _ _ (by decide)]
        simp only []
        rw [if_true]
        rw [skipWs_space, skipWs_dumpsVal]
        rw [iha x' xs' rest (band_split _ _ hwxs).1
          (band_split _ _ hwxs).2 (by
            have h1 : jsizeList (x :: x' :: xs') =
              1 + max (jsizeVal x) (jsizeList (x' :: xs')) := rfl
            omega) hr]
    · -- parseObjMembers
      intro kv kvs rest hwv hwm hf hr
      rw [dumpsMember_shape]
      simp only [parseObjMembers]
      rw [parseStringBody_encode kv.1 _ _ (by
        simp only [List.length_append, List.length_cons]
        omega)]
      simp only []
      rw [skipWs_cons_of_not_ws _ _ (by decide)]
      simp only []
      rw [if_true]
      rw [skipWs_space, skipWs_dumpsVal]
      have hjv : jsizeVal kv.2 ≤ fuel := by
        have : jsizeMembers (kv :: kvs) =
          1 + max (jsizeVal kv.2) (jsizeMembers kvs) := by
          obtain ⟨k, v2⟩ := kv
          rfl
        omega
      rw [ihv kv.2 (dumpsObjTail kvs ++ rbrace :: rest) hwv hjv
        (restOk_dumpsObjTail kvs rest)]
      simp only []
      cases kvs with
      | nil =>
        rw [show dumpsObjTail ([] : List (List Char × JsonVal)) ++
          rbrace :: rest = rbrace :: rest from rfl]
        rw [skipWs_cons_of_not_ws _ _ (by decide)]
        simp only []
        rw [if_neg (by decide : ¬ rbrace = ','), if_true]
      | cons kv' kvs' =>
        rw [show dumpsObjTail (kv' :: kvs') ++ rbrace :: rest =
          ',' :: ' ' :: (dumpsMember kv' ++ (dumpsObjTail kvs' ++
            rbrace :: rest)) from by simp [dumpsObjTail, List.append_assoc]]
        rw [skipWs_cons_of_not_ws _ _ (by decide)]
        simp only []
        rw [if_true]
        rw [skipWs_space]
        rw [dumpsMember_shape, skipWs_cons_of_not_ws _ _ (by decide),
          ← dumpsMember_shape]
        rw [iho kv' kvs' rest (band_split _ _ hwm).1
          (band_split _ _ hwm).2 (by
            have h1 : jsizeMembers (kv :: kv' :: kvs') =
              1 + max (jsizeVal kv.2) (jsizeMembers (kv' :: kvs')) := by
              obtain ⟨k, v2⟩ := kv
              rfl
            omega) hr]

theorem loads_dumps (v : JsonVal) (hw : wfVal v = true) :
    loads (dumpsVal v) = some v := by
  unfold loads
  rw [show skipWs (dumpsVal v) = dumpsVal v from by
    simpa using skipWs_dumpsVal v []]
  have hb := jsizeVal_le v
  have hp := (parse_roundtrip_fuel ((dumpsVal v).length + 1)).1 v [] hw
    (by omega) (Or.inl rfl)
  rw [show dumpsVal v ++ [] = dumpsVal v from by simp] at hp
  rw [hp]
  rfl

/-! ## Command-frame round trip (claim C7) -/

theorem decodeKwargPairs_flatMap (kwargs : List (List Char × JsonVal))
    (hw : wfMembers kwargs = true) :
    decodeKwargPairs (kwargs.flatMap (fun kv => [kv.1, dumpsVal kv.2])) =
      some kwargs := by
  induction kwargs with
  | nil => rfl
  | cons kv kwargs ih =>
    rw [List.flatMap_cons]
    show decodeKwargPairs (kv.1 :: dumpsVal kv.2 ::
      kwargs.flatMap (fun kv => [kv.1, dumpsVal kv.2])) = _
    simp only [decodeKwargPairs]
    rw [loads_dumps kv.2 (band_split _ _ hw).1]
    rw [ih (band_split _ _ hw).2]

/-- C7: encoding a command and keyword arguments with `sendCommand` and
decoding the resulting frames the way `_handle_message` does recovers
exactly the original command and keyword-argument mapping.  The first
frame of the encoded sequence is the empty delimiter frame (stripped by
the reply-validation layer before `_handle_message`'s loop runs); the
frames after it decode — first frame as the command, the rest as
alternating key and JSON-encoded-value pairs — to the original command
and kwargs. -/
theorem sendCommand_roundtrip (command : List Char)
    (kwargs : List (List Char × JsonVal)) (hw : wfKwargs kwargs = true) :
    (sendCommandParts command kwargs).take 1 = [[]] ∧
    handle_message ((sendCommandParts command kwargs).drop 1) =
      some (command, kwargs) := by
  have hb := band_split _ _ hw
  refine ⟨rfl, ?_⟩
  show handle_message (command ::
    kwargs.flatMap (fun kv => [kv.1, dumpsVal kv.2])) = _
  simp only [handle_message]
  rw [decodeKwargPairs_flatMap kwargs hb.2]
  simp only [Option.map_some']
  rw [dictOf_self _ (of_decide_eq_true hb.1)]

/-- Witness for `sendCommand_roundtrip`: the `play` command carrying one
card argument. -/
theorem sendCommand_roundtrip_witness :
    wfKwargs [(String.toList "card",
      JsonVal.obj [(String.toList "rank", .str (String.toList "ace")),
        (String.toList "suit", .str (String.toList "spades"))])] = true ∧
    ((sendCommandParts (String.toList "play")
        [(String.toList "card",
          JsonVal.obj [(String.toList "rank", .str (String.toList "ace")),
            (String.toList "suit",
              .str (String.toList "spades"))])]).take 1 = [[]] ∧
      handle_message ((sendCommandParts (String.toList "play")
        [(String.toList "card",
          JsonVal.obj [(String.toList "rank", .str (String.toList "ace")),
            (String.toList "suit",
              .str (String.toList "spades"))])]).drop 1) =
        some (String.toList "play",
          [(String.toList "card",
            JsonVal.obj [(String.toList "rank", .str (String.toList "ace")),
              (String.toList "suit", .str (String.toList "spades"))])])) :=
  ⟨by decide, sendCommand_roundtrip _ _ (by decide)⟩

/-! ## Card conversion (claim C10) -/

/-- C10, counterexample: `asCard` returns a `Card` instance unchanged
without validating it, so on the input `Card("x", "y")` it returns a card
whose rank and suit lie outside `RANK_TAGS`/`SUIT_TAGS` instead of
raising `ProtocolError`. -/
theorem asCard_passthrough_counterexample :
    asCard (.card ⟨.str (String.toList "x"), .str (String.toList "y")⟩) =
      some ⟨.str (String.toList "x"), .str (String.toList "y")⟩ ∧
    inTags (.str (String.toList "x")) RANK_TAGS = false ∧
    inTags (.str (String.toList "y")) SUIT_TAGS = false :=
  ⟨rfl, rfl, rfl⟩

/-- C10, amended: for every non-`Card` input on which `asCard` returns a
card `c`, the rank and suit of `c` are members of the tag tuples and
`asCard c = c` (idempotence); a non-`Card` input fails (returns
`ProtocolError`, here `none`) exactly when a rank or suit key is missing
or its value lies outside the tag tuples; and a `Card` instance is
returned unchanged without validation. -/
theorem asCard_json_validates :
    (∀ v c, asCard (.json v) = some c →
      inTags c.rank RANK_TAGS = true ∧ inTags c.suit SUIT_TAGS = true ∧
      asCard (.card c) = some c) ∧
    (∀ c, asCard (.card c) = some c) ∧
    (∀ v, asCard (.json v) = none ↔
      (jsonLookup v (String.toList "rank") = none ∨
       jsonLookup v (String.toList "suit") = none ∨
       inTags ((jsonLookup v (String.toList "rank")).getD .null) RANK_TAGS
         = false ∨
       inTags ((jsonLookup v (String.toList "suit")).getD .null) SUIT_TAGS
         = false)) := by
  refine ⟨?_, fun c => rfl, ?_⟩
  · intro v c h
    simp only [asCard] at h
    cases hri : jsonLookup v (String.toList "rank") with
    | none => rw [hri] at h; simp at h
    | some r =>
      cases hsi : jsonLookup v (String.toList "suit") with
      | none => rw [hri, hsi] at h; simp at h
      | some s =>
        rw [hri, hsi] at h
        simp only [] at h
        by_cases ht : (!inTags r RANK_TAGS || !inTags s SUIT_TAGS) = true
        · rw [if_pos ht] at h
          exact absurd h (by simp)
        · rw [if_neg ht] at h
          have hcs : c = ⟨r, s⟩ := by
            cases h
            rfl
          subst hcs
          have hb : inTags r RANK_TAGS = true ∧ inTags s SUIT_TAGS = true := by
            simpa using ht
          exact ⟨hb.1, hb.2, rfl⟩
  · intro v
    simp only [asCard]
    cases hri : jsonLookup v (String.toList "rank") with
    | none => simp [hri]
    | some r =>
      cases hsi : jsonLookup v (String.toList "suit") with
      | none => simp [hri, hsi]
      | some s =>
        simp only [hri, hsi, Option.getD_some]
        by_cases ht : (!inTags r RANK_TAGS || !inTags s SUIT_TAGS) = true
        · rw [if_pos ht]
          have ht' : inTags r RANK_TAGS = false ∨ inTags s SUIT_TAGS = false := by
            simpa using ht
          rcases ht' with h1 | h1 <;> simp [h1]
        · rw [if_neg ht]
          have ht' : inTags r RANK_TAGS = true ∧ inTags s SUIT_TAGS = true := by
            simpa using ht
          simp [ht'.1, ht'.2]

/-- Witness for `asCard_json_validates`: the serialised ace of spades. -/
theorem asCard_json_validates_witness :
    asCard (.json (.obj [(String.toList "rank", .str (String.toList "ace")),
        (String.toList "suit", .str (String.toList "spades"))])) =
      some ⟨.str (String.toList "ace"), .str (String.toList "spades")⟩ ∧
    (inTags (Card.mk (.str (String.toList "ace"))
        (.str (String.toList "spades"))).rank RANK_TAGS = true ∧
      inTags (Card.mk (.str (String.toList "ace"))
        (.str (String.toList "spades"))).suit SUIT_TAGS = true ∧
      asCard (.card ⟨.str (String.toList "ace"),
        .str (String.toList "spades")⟩) =
        some ⟨.str (String.toList "ace"), .str (String.toList "spades")⟩) :=
  ⟨rfl, asCard_json_validates.1
    (.obj [(String.toList "rank", .str (String.toList "ace")),
      (String.toList "suit", .str (String.toList "spades"))])
    ⟨.str (String.toList "ace"), .str (String.toList "spades")⟩ rfl⟩

end Bridge
